import Mathlib

/-! BotPopolam: shared-expense settlement.

A shallow embedding of `src/main.go` (the session store, `getOrCreateSession`
and `handleMessage` with its `/add`, `/calc` and `/reset` branches) together
with theorems about the settlement algorithm and the ledger data model.

Modelling conventions.

* `float64` is `F64`: a rational number or one of the IEEE special values
  `+Inf`, `-Inf`, `NaN`.  Arithmetic on finite values is exact (rounding and
  overflow are not modelled); the special values follow IEEE 754 / Go.  The
  theorems on amounts are therefore stated with the comparisons of `F64` and
  with transfers applied one after another, the way the loop subtracts them,
  and assert no equation between sums: what they say of a difference `x - y`
  with `0 ≤ y ≤ x` (it lies between `0` and `x`, and `x - x = 0`) holds of the
  rounded difference as well.  They are stated twice: for the classification
  and the greedy loop run on an arbitrary balance map, so that they cover the
  balances float64 arithmetic yields where these differ from the exact ones
  (an overflowed total, a balance rounded across `0.01`), and for the `/calc`
  branch run on a ledger.
* A Go `map[int64]T` is an association list with distinct keys.  The order in
  which `range` visits a map is not fixed by Go, so the one `range` whose order
  is observable (`for uid, bal := range balance`) takes the visiting order as an
  explicit argument `visit`.
* `sessions` (the global map) is passed and returned explicitly (`Store`).
* The greedy `for` loop carries a fuel counter; `none` means that the loop did
  not finish within the fuel.
* The message text is represented by the branch of the `switch` it selects
  (`Command`), the argument of `/add` by what `strconv.ParseFloat` returns.
-/

namespace BotPopolam

/-! ## float64 -/

/-- Values of Go's `float64`: a finite number (kept exact) or an IEEE special
value. -/
inductive F64 where
  | num (q : ℚ)
  | posInf
  | negInf
  | nan
  deriving DecidableEq

namespace F64

/-- Unary minus. -/
def neg : F64 → F64
  | num a => num (-a)
  | posInf => negInf
  | negInf => posInf
  | nan => nan

/-- IEEE addition: `NaN` is absorbing, `+Inf + -Inf = NaN`. -/
def add : F64 → F64 → F64
  | num a, num b => num (a + b)
  | nan, _ => nan
  | _, nan => nan
  | posInf, negInf => nan
  | negInf, posInf => nan
  | posInf, _ => posInf
  | _, posInf => posInf
  | negInf, _ => negInf
  | _, negInf => negInf

/-- IEEE subtraction, `x - y = x + (-y)`. -/
def sub (x y : F64) : F64 := add x (neg y)

/-- IEEE division (signed zeros are not modelled: a zero divisor counts as `+0`). -/
def div : F64 → F64 → F64
  | nan, _ => nan
  | _, nan => nan
  | num a, num b =>
      if b = 0 then (if a = 0 then nan else if 0 < a then posInf else negInf)
      else num (a / b)
  | num _, posInf => num 0
  | num _, negInf => num 0
  | posInf, num b => if b < 0 then negInf else posInf
  | negInf, num b => if b < 0 then posInf else negInf
  | posInf, posInf => nan
  | posInf, negInf => nan
  | negInf, posInf => nan
  | negInf, negInf => nan

/-- The comparison `x < y`; false as soon as one side is `NaN`. -/
def lt : F64 → F64 → Bool
  | nan, _ => false
  | _, nan => false
  | num a, num b => decide (a < b)
  | negInf, negInf => false
  | negInf, _ => true
  | _, negInf => false
  | posInf, _ => false
  | num _, posInf => true

/-- The comparison `x <= y`; false as soon as one side is `NaN`. -/
def le : F64 → F64 → Bool
  | nan, _ => false
  | _, nan => false
  | num a, num b => decide (a ≤ b)
  | negInf, _ => true
  | _, posInf => true
  | posInf, _ => false
  | num _, negInf => false

/-- Go's `math.Min`: `Min(x, -Inf) = Min(-Inf, x) = -Inf`, then
`Min(x, NaN) = Min(NaN, x) = NaN`, otherwise the smaller argument. -/
def min : F64 → F64 → F64
  | negInf, _ => negInf
  | _, negInf => negInf
  | nan, _ => nan
  | _, nan => nan
  | num a, num b => if a ≤ b then num a else num b
  | num a, posInf => num a
  | posInf, num b => num b
  | posInf, posInf => posInf

/-- The conversion `float64(n)` of a length. -/
def ofNat (n : Nat) : F64 := num n

/-- The literal `0.0` (also the zero value of a missing map entry). -/
def zero : F64 := num 0

/-- The tolerance literal `0.01`. -/
def eps : F64 := num (1 / 100)

instance : Add F64 := ⟨add⟩
instance : Sub F64 := ⟨sub⟩
instance : Neg F64 := ⟨neg⟩
instance : Div F64 := ⟨div⟩

end F64

/-! ## Go maps as association lists -/

/-- Lookup `m[k]` with presence flag (`v, ok := m[k]`). -/
def mapGet {α : Type} : List (Int × α) → Int → Option α
  | [], _ => none
  | (k', v) :: rest, k => if k' = k then some v else mapGet rest k

/-- Assignment `m[k] = v`: overwrite the entry of `k` or add a new one. -/
def mapSet {α : Type} : List (Int × α) → Int → α → List (Int × α)
  | [], k, v => [(k, v)]
  | (k', v') :: rest, k, v =>
      if k' = k then (k, v) :: rest else (k', v') :: mapSet rest k v

/-- Removal `delete(m, k)`. -/
def mapDelete {α : Type} : List (Int × α) → Int → List (Int × α)
  | [], _ => []
  | (k', v) :: rest, k =>
      if k' = k then mapDelete rest k else (k', v) :: mapDelete rest k

/-- The keys present in a map. -/
def mapKeys {α : Type} (m : List (Int × α)) : List Int := m.map Prod.fst

/-- The loop `for k, v := range m` visiting the keys in the order `visit`. -/
def mapRange {α : Type} (m : List (Int × α)) (visit : List Int) : List (Int × α) :=
  visit.filterMap (fun k => (mapGet m k).map (fun v => (k, v)))

/-! ## Data model -/

/-- The struct `Expense`. -/
structure Expense where
  UserID : Int
  Username : String
  Amount : F64
  deriving DecidableEq

/-- The struct `Session`: the expenses of one chat and the names of its users. -/
structure Session where
  Expenses : List Expense
  Users : List (Int × String)
  deriving DecidableEq

/-- The global `sessions` map, keyed by chat id. -/
abbrev Store := List (Int × Session)

/-- The struct `User` (sender of a message). -/
structure User where
  ID : Int
  Username : String
  FirstName : String
  deriving DecidableEq

/-- What `/add` finds after the command word: no second field
(`len(parts) < 2`), a field `strconv.ParseFloat` rejects (`err != nil`), or the
parsed value (`err == nil`; `ParseFloat` accepts `inf`, `+inf`, `infinity` and
`nan` in any case and returns `+Inf` or `NaN` for them without an error). -/
inductive AddArg where
  | missing
  | malformed
  | value (v : F64)
  deriving DecidableEq

/-- The branch of `handleMessage` that the trimmed, lower-cased text selects:
empty text, `/start`, a text starting with `/add `, `/calc`, `/reset`, or
anything else. -/
inductive Command where
  | blank
  | start
  | add (arg : AddArg)
  | calculate
  | reset
  | other
  deriving DecidableEq

/-- The struct `Message`, with `Chat.ID` flattened and `Text` already
classified. -/
structure Message where
  ChatID : Int
  From : User
  Text : Command
  deriving DecidableEq

/-- An element of the `debtors` or `creditors` slice. -/
structure Party where
  id : Int
  amount : F64
  deriving DecidableEq

/-- One line `"%s → %s: %.2f\n"` of the settlement report: payer and payee (ids
and the names looked up in `session.Users`) and the amount. -/
structure Transfer where
  debtor : Int
  creditor : Int
  fromName : String
  toName : String
  amount : F64
  deriving DecidableEq

/-- The text passed to `sendMessage`, by kind. -/
inductive Reply where
  | silent
  | hello
  | usage
  | badAmount
  | added (username : String) (amount : F64) (total : F64)
  | noData
  | allEqual
  | transfers (ts : List Transfer)
  | resetDone
  | unknown
  deriving DecidableEq

/-! ## Ledger store -/

/-- The function `getOrCreateSession`: the stored session of the chat, or a
fresh empty one that is stored first. -/
def getOrCreateSession (sessions : Store) (chatID : Int) : Store × Session :=
  match mapGet sessions chatID with
  | some s => (sessions, s)
  | none =>
      let s : Session := { Expenses := [], Users := [] }
      (mapSet sessions chatID s, s)

/-! ## Settlement (`/calc`) -/

/-- The body of the loop computing `total` and `paid`:
`total += e.Amount; paid[e.UserID] += e.Amount`. -/
def accStep (acc : F64 × List (Int × F64)) (e : Expense) : F64 × List (Int × F64) :=
  (acc.1 + e.Amount,
   mapSet acc.2 e.UserID ((mapGet acc.2 e.UserID).getD F64.zero + e.Amount))

/-- The loop `for _, e := range session.Expenses` computing `total` and `paid`,
both starting empty. -/
def accumulate (expenses : List Expense) : F64 × List (Int × F64) :=
  expenses.foldl accStep (F64.zero, [])

/-- The variable `total`. -/
def total (expenses : List Expense) : F64 := (accumulate expenses).1

/-- The map `paid`. -/
def paid (expenses : List Expense) : List (Int × F64) := (accumulate expenses).2

/-- The slice `userIDs`, the keys of `paid`. -/
def userIDs (expenses : List Expense) : List Int := mapKeys (paid expenses)

/-- The variable `perPerson = total / float64(len(userIDs))`. -/
def perPerson (expenses : List Expense) : F64 :=
  total expenses / F64.ofNat (userIDs expenses).length

/-- The map `balance`: `balance[uid] = paid[uid] - perPerson` for each of
`userIDs`. -/
def balance (expenses : List Expense) : List (Int × F64) :=
  (userIDs expenses).foldl
    (fun b uid =>
      mapSet b uid ((mapGet (paid expenses) uid).getD F64.zero - perPerson expenses))
    []

/-- The body of the classification loop for one visited `(uid, bal)`:
`bal < -0.01` appends to `debtors`, else `bal > 0.01` appends to `creditors`. -/
def classifyStep (acc : List Party × List Party) (p : Int × F64) :
    List Party × List Party :=
  if F64.lt p.2 (-F64.eps) then (acc.1 ++ [{ id := p.1, amount := -p.2 }], acc.2)
  else if F64.lt F64.eps p.2 then (acc.1, acc.2 ++ [{ id := p.1, amount := p.2 }])
  else acc

/-- The classification loop over the visited `(uid, bal)` pairs, `debtors` and
`creditors` both starting empty. -/
def classify (entries : List (Int × F64)) : List Party × List Party :=
  entries.foldl classifyStep ([], [])

/-- The slice `debtors` when `balance` is ranged in the order `visit`. -/
def debtors (expenses : List Expense) (visit : List Int) : List Party :=
  (classify (mapRange (balance expenses) visit)).1

/-- The slice `creditors` when `balance` is ranged in the order `visit`. -/
def creditors (expenses : List Expense) (visit : List Int) : List Party :=
  (classify (mapRange (balance expenses) visit)).2

/-- The greedy loop `for i < len(debtors) && j < len(creditors)`.  The two list
arguments are `debtors[i:]` and `creditors[j:]`, their heads carrying the
remaining amounts of the current debtor and creditor. -/
def greedy (users : List (Int × String)) :
    Nat → List Party → List Party → Option (List Transfer)
  | _, [], _ => some []
  | _, _ :: _, [] => some []
  | 0, _ :: _, _ :: _ => none
  | fuel + 1, d :: ds, c :: cs =>
      let amount := F64.min d.amount c.amount
      let dRest := d.amount - amount
      let cRest := c.amount - amount
      let line : Transfer :=
        { debtor := d.id, creditor := c.id,
          fromName := (mapGet users d.id).getD "",
          toName := (mapGet users c.id).getD "",
          amount := amount }
      let ds' := if F64.lt dRest F64.eps then ds else { id := d.id, amount := dRest } :: ds
      let cs' := if F64.lt cRest F64.eps then cs else { id := c.id, amount := cRest } :: cs
      (greedy users fuel ds' cs').map (fun rest => line :: rest)

/-- The `/calc` branch of `handleMessage` on a session, the `balance` map
being ranged in the order `visit`. -/
def settle (session : Session) (visit : List Int) : Option Reply :=
  if session.Expenses.length = 0 then some Reply.noData
  else
    let ds := debtors session.Expenses visit
    let cs := creditors session.Expenses visit
    if ds.length = 0 ∧ cs.length = 0 then some Reply.allEqual
    else (greedy session.Users (ds.length + cs.length) ds cs).map Reply.transfers

/-! ## Message handling -/

/-- The running total `totalAmountU` of one user after `/add`. -/
def totalAmountU (expenses : List Expense) (userID : Int) : F64 :=
  expenses.foldl (fun acc e => if e.UserID = userID then acc + e.Amount else acc) F64.zero

/-- The function `handleMessage`: the store afterwards and the reply sent, or
`none` when the greedy loop does not finish. -/
def handleMessage (sessions : Store) (msg : Message) (visit : List Int) :
    Option (Store × Reply) :=
  let chatID := msg.ChatID
  let userID := msg.From.ID
  let username := if msg.From.Username = "" then msg.From.FirstName else msg.From.Username
  let created := getOrCreateSession sessions chatID
  let session : Session :=
    { created.2 with Users := mapSet created.2.Users userID username }
  let stored := mapSet created.1 chatID session
  match msg.Text with
  | Command.blank => some (stored, Reply.silent)
  | Command.start => some (stored, Reply.hello)
  | Command.add AddArg.missing => some (stored, Reply.usage)
  | Command.add AddArg.malformed => some (stored, Reply.badAmount)
  | Command.add (AddArg.value amount) =>
      if F64.le amount F64.zero then some (stored, Reply.badAmount)
      else
        let expenses := session.Expenses ++
          [{ UserID := userID, Username := username, Amount := amount }]
        some (mapSet created.1 chatID { session with Expenses := expenses },
              Reply.added username amount (totalAmountU expenses userID))
  | Command.calculate => (settle session visit).map (fun r => (stored, r))
  | Command.reset => some (mapDelete stored chatID, Reply.resetDone)
  | Command.other => some (stored, Reply.unknown)

/-- Handling a sequence of messages from a given store, each with the order in
which its `/calc` would range the balance map. -/
def run : Store → List (Message × List Int) → Option Store
  | sessions, [] => some sessions
  | sessions, (msg, visit) :: rest =>
      match handleMessage sessions msg visit with
      | none => none
      | some r => run r.1 rest

/-! ## Vocabulary of the properties -/

/-- The transfers a reply carries (none for the other kinds of reply). -/
def emitted : Reply → List Transfer
  | Reply.transfers ts => ts
  | _ => []

/-- Every user id of an expense of the session has a name in `Users`. -/
def NamesResolved (s : Session) : Prop :=
  ∀ e ∈ s.Expenses, (mapGet s.Users e.UserID).isSome = true

/-- A debtor or creditor with a finite amount. -/
def liftParty (p : Int × ℚ) : Party := { id := p.1, amount := F64.num p.2 }

/-- A transfer of a finite amount between two ids. -/
structure Move where
  src : Int
  dst : Int
  amt : ℚ

/-- The report line of a finite transfer. -/
def liftMove (users : List (Int × String)) (t : Move) : Transfer :=
  { debtor := t.src, creditor := t.dst,
    fromName := (mapGet users t.src).getD "",
    toName := (mapGet users t.dst).getD "",
    amount := F64.num t.amt }

/-- What stays at the head of a list after its head `p` has settled `m`:
nothing when the remainder is below `0.01`, else `p` with the remainder. -/
def carry (p : Int × ℚ) (m : ℚ) (l : List (Int × ℚ)) : List (Int × ℚ) :=
  if p.2 - m < 1 / 100 then l else (p.1, p.2 - m) :: l

/-- The runs of the greedy loop on finite amounts: `Matching ds cs ts` when the
loop started on `ds` and `cs` emits exactly `ts`. -/
inductive Matching : List (Int × ℚ) → List (Int × ℚ) → List Move → Prop
  | doneDebtors (cs : List (Int × ℚ)) : Matching [] cs []
  | doneCreditors (ds : List (Int × ℚ)) : Matching ds [] []
  | step (d c : Int × ℚ) (ds cs : List (Int × ℚ)) (ts : List Move)
      (rest : Matching (carry d (min d.2 c.2) ds) (carry c (min d.2 c.2) cs) ts) :
      Matching (d :: ds) (c :: cs) ({ src := d.1, dst := c.1, amt := min d.2 c.2 } :: ts)

/-- Auxiliary: debtor classification of one visited entry. -/
def debtorOf (p : Int × F64) : Option Party :=
  if F64.lt p.2 (-F64.eps) then some { id := p.1, amount := -p.2 } else none

/-- Auxiliary: creditor classification of one visited entry. -/
def creditorOf (p : Int × F64) : Option Party :=
  if F64.lt p.2 (-F64.eps) then none
  else if F64.lt F64.eps p.2 then some { id := p.1, amount := p.2 } else none

/-- A map entry with a finite value. -/
def liftEntry (p : Int × ℚ) : Int × F64 := (p.1, F64.num p.2)

/-- Debtor classification on finite balances. -/
def debtorQ (p : Int × ℚ) : Option (Int × ℚ) :=
  if p.2 < -(1 / 100) then some (p.1, -p.2) else none

/-- Creditor classification on finite balances. -/
def creditorQ (p : Int × ℚ) : Option (Int × ℚ) :=
  if 1 / 100 < p.2 then some (p.1, p.2) else none

/-- Scenario 1: Bob starts the bot and tries `/add 0`, Alice adds 100 (chat 10;
Alice is user 1, Bob user 2). -/
def scenario1 : List (Message × List Int) :=
  [({ ChatID := 10, From := { ID := 2, Username := "Bob", FirstName := "Bob" },
      Text := Command.start }, []),
   ({ ChatID := 10, From := { ID := 2, Username := "Bob", FirstName := "Bob" },
      Text := Command.add (AddArg.value (F64.num 0)) }, []),
   ({ ChatID := 10, From := { ID := 1, Username := "Alice", FirstName := "Alice" },
      Text := Command.add (AddArg.value (F64.num 100)) }, [])]

/-- The `/calc` message Bob sends in scenario 1. -/
def scenario1Calc : Message :=
  { ChatID := 10, From := { ID := 2, Username := "Bob", FirstName := "Bob" },
    Text := Command.calculate }

/-- The reply to a message handled after a sequence of earlier messages. -/
def replyAfter (msgs : List (Message × List Int)) (msg : Message) (visit : List Int) :
    Option Reply :=
  (run [] msgs).bind (fun st => (handleMessage st msg visit).map Prod.snd)

/-- The expenses stored for a chat. -/
def expensesOf (sessions : Store) (chatID : Int) : List Expense :=
  ((mapGet sessions chatID).map Session.Expenses).getD []

/-- A ledger of four users paying 45, 45, 20 and 10 (chat 20). -/
def fourPayers : Store :=
  [(20, { Expenses := [{ UserID := 1, Username := "ann", Amount := F64.num 45 },
                       { UserID := 2, Username := "ben", Amount := F64.num 45 },
                       { UserID := 3, Username := "cat", Amount := F64.num 20 },
                       { UserID := 4, Username := "dan", Amount := F64.num 10 }],
          Users := [(1, "ann"), (2, "ben"), (3, "cat"), (4, "dan")] })]

/-- The `/calc` message sent to the four-payer chat. -/
def fourPayersCalc : Message :=
  { ChatID := 20, From := { ID := 1, Username := "ann", FirstName := "Ann" },
    Text := Command.calculate }

/-- The name under which `handleMessage` records a sender: the username, or the
first name when the username is empty. -/
def displayName (who : User) : String :=
  if who.Username = "" then who.FirstName else who.Username

/-- The names stored for a chat. -/
def usersOf (sessions : Store) (chatID : Int) : List (Int × String) :=
  ((mapGet sessions chatID).map Session.Users).getD []

/-- A transfer without the two rendered names: payer id, payee id, amount. -/
def eraseName (t : Transfer) : Transfer := { t with fromName := "", toName := "" }

/-- A reply with the rendered names of its transfers erased. -/
def eraseNames : Reply → Reply
  | Reply.transfers ts => Reply.transfers (ts.map eraseName)
  | r => r

theorem mapGet_mapSet_same {α : Type} (m : List (Int × α)) (k : Int) (v : α) :
    mapGet (mapSet m k v) k = some v := by
  induction m with
  | nil => simp [mapSet, mapGet]
  | cons p rest ih =>
      obtain ⟨k', v'⟩ := p
      by_cases h : k' = k
      · simp [mapSet, mapGet, h]
      · simp [mapSet, mapGet, h, ih]

theorem mapGet_mapSet_other {α : Type} (m : List (Int × α)) (k k' : Int) (v : α)
    (h : k' ≠ k) : mapGet (mapSet m k v) k' = mapGet m k' := by
  have h' : ¬ k = k' := fun e => h e.symm
  induction m with
  | nil => simp [mapSet, mapGet, h']
  | cons p rest ih =>
      obtain ⟨k1, v1⟩ := p
      by_cases h1 : k1 = k
      · subst h1
        simp [mapSet, mapGet, h']
      · by_cases h2 : k1 = k'
        · subst h2
          simp [mapSet, mapGet, h1]
        · simp [mapSet, mapGet, h1, h2, ih]

theorem mapGet_mapDelete_same {α : Type} (m : List (Int × α)) (k : Int) :
    mapGet (mapDelete m k) k = none := by
  induction m with
  | nil => simp [mapDelete, mapGet]
  | cons p rest ih =>
      obtain ⟨k1, v1⟩ := p
      by_cases h1 : k1 = k
      · simp [mapDelete, h1, ih]
      · simp [mapDelete, mapGet, h1, ih]

theorem mapGet_mapDelete_other {α : Type} (m : List (Int × α)) (k k' : Int)
    (h : k' ≠ k) : mapGet (mapDelete m k) k' = mapGet m k' := by
  have h' : ¬ k = k' := fun e => h e.symm
  induction m with
  | nil => simp [mapDelete, mapGet]
  | cons p rest ih =>
      obtain ⟨k1, v1⟩ := p
      by_cases h1 : k1 = k
      · subst h1
        simp [mapDelete, mapGet, h', ih]
      · by_cases h2 : k1 = k'
        · subst h2
          simp [mapDelete, mapGet, h1]
        · simp [mapDelete, mapGet, h1, h2, ih]

theorem mem_mapSet {α : Type} (m : List (Int × α)) (k : Int) (v : α) (p : Int × α)
    (h : p ∈ mapSet m k v) : p = (k, v) ∨ p ∈ m := by
  induction m with
  | nil => simpa [mapSet] using h
  | cons q rest ih =>
      obtain ⟨k1, v1⟩ := q
      by_cases h1 : k1 = k
      · simp only [mapSet, h1, if_true, List.mem_cons] at h
        rcases h with h | h
        · exact Or.inl h
        · exact Or.inr (List.mem_cons_of_mem _ h)
      · simp only [mapSet, h1, if_false, List.mem_cons] at h
        rcases h with h | h
        · exact Or.inr (by simp [h])
        · rcases ih h with h | h
          · exact Or.inl h
          · exact Or.inr (List.mem_cons_of_mem _ h)

theorem mapGet_of_mem_isSome {α : Type} (m : List (Int × α)) (p : Int × α) (h : p ∈ m) :
    (mapGet m p.1).isSome = true := by
  induction m with
  | nil => simp at h
  | cons q rest ih =>
      obtain ⟨k1, v1⟩ := q
      by_cases h1 : k1 = p.1
      · simp [mapGet, h1]
      · simp only [List.mem_cons] at h
        rcases h with h | h
        · exact absurd (by simp [h]) h1
        · simp [mapGet, h1, ih h]

theorem mem_of_mapGet {α : Type} (m : List (Int × α)) (k : Int) (v : α)
    (h : mapGet m k = some v) : (k, v) ∈ m := by
  induction m with
  | nil => simp [mapGet] at h
  | cons q rest ih =>
      obtain ⟨k1, v1⟩ := q
      by_cases h1 : k1 = k
      · simp only [mapGet, h1, if_true, Option.some.injEq] at h
        simp [h1, h]
      · simp only [mapGet, h1, if_false] at h
        exact List.mem_cons_of_mem _ (ih h)

theorem mem_mapDelete {α : Type} (m : List (Int × α)) (k : Int) (p : Int × α)
    (h : p ∈ mapDelete m k) : p ∈ m := by
  induction m with
  | nil => simp [mapDelete] at h
  | cons q rest ih =>
      obtain ⟨k1, v1⟩ := q
      by_cases h1 : k1 = k
      · simp only [mapDelete, h1, if_true] at h
        exact List.mem_cons_of_mem _ (ih h)
      · simp only [mapDelete, h1, if_false, List.mem_cons] at h
        rcases h with h | h
        · simp [h]
        · exact List.mem_cons_of_mem _ (ih h)

/-! ## Lemmas on float64 -/

theorem F64.num_add (a b : ℚ) : (F64.num a + F64.num b : F64) = F64.num (a + b) := rfl

theorem F64.num_sub (a b : ℚ) : (F64.num a - F64.num b : F64) = F64.num (a - b) := by
  show F64.add (F64.num a) (F64.neg (F64.num b)) = _
  simp [F64.neg, F64.add, sub_eq_add_neg]

theorem F64.neg_num (a : ℚ) : (-F64.num a : F64) = F64.num (-a) := rfl

theorem F64.min_num (a b : ℚ) : F64.min (F64.num a) (F64.num b) = F64.num (Min.min a b) := by
  by_cases h : a ≤ b
  · simp [F64.min, h]
  · have h' : b ≤ a := le_of_lt (not_le.mp h)
    simp [F64.min, h, h']

theorem F64.lt_num (a b : ℚ) : F64.lt (F64.num a) (F64.num b) = decide (a < b) := rfl

theorem F64.add_eq_num (x y : F64) (q : ℚ) (h : x + y = F64.num q) :
    ∃ a b, x = F64.num a ∧ y = F64.num b := by
  cases x <;> cases y <;> first
    | exact ⟨_, _, rfl, rfl⟩
    | exact absurd h (by intro h'; cases h')

/-! ## The greedy loop on finite amounts -/

theorem greedy_nil_left (users : List (Int × String)) (fuel : Nat) (cs : List Party) :
    greedy users fuel [] cs = some [] := by
  cases fuel <;> simp [greedy]

theorem greedy_nil_right (users : List (Int × String)) (fuel : Nat) (ds : List Party) :
    greedy users fuel ds [] = some [] := by
  cases fuel <;> cases ds <;> simp [greedy]

theorem carry_length_le (d c : Int × ℚ) (ds cs : List (Int × ℚ)) :
    (carry d (min d.2 c.2) ds).length + (carry c (min d.2 c.2) cs).length
      ≤ ds.length + cs.length + 1 := by
  have hmin : d.2 - min d.2 c.2 = 0 ∨ c.2 - min d.2 c.2 = 0 := by
    rcases le_total d.2 c.2 with h | h
    · left; simp [min_eq_left h]
    · right; simp [min_eq_right h]
  unfold carry
  by_cases h1 : d.2 - min d.2 c.2 < 1 / 100 <;>
    by_cases h2 : c.2 - min d.2 c.2 < 1 / 100
  · simp only [h1, h2, if_true]; omega
  · simp only [h1, h2, if_true, if_false, List.length_cons]; omega
  · simp only [h1, h2, if_true, if_false, List.length_cons]; omega
  · exfalso
    rcases hmin with h | h
    · rw [h] at h1; norm_num at h1
    · rw [h] at h2; norm_num at h2

theorem greedy_lift (users : List (Int × String)) :
    ∀ (fuel : Nat) (ds cs : List (Int × ℚ)), ds.length + cs.length ≤ fuel + 1 →
      ∃ ts, greedy users fuel (ds.map liftParty) (cs.map liftParty)
              = some (ts.map (liftMove users)) ∧ Matching ds cs ts := by
  intro fuel
  induction fuel with
  | zero =>
      intro ds cs hlen
      cases ds with
      | nil => exact ⟨[], by simp [greedy_nil_left], Matching.doneDebtors cs⟩
      | cons d ds =>
          cases cs with
          | nil => exact ⟨[], by simp [greedy_nil_right], Matching.doneCreditors _⟩
          | cons c cs => simp at hlen; omega
  | succ fuel ih =>
      intro ds cs hlen
      cases ds with
      | nil => exact ⟨[], by simp [greedy_nil_left], Matching.doneDebtors cs⟩
      | cons d ds =>
          cases cs with
          | nil => exact ⟨[], by simp [greedy_nil_right], Matching.doneCreditors _⟩
          | cons c cs =>
              simp only [List.length_cons] at hlen
              have hshort := carry_length_le d c ds cs
              obtain ⟨ts, hts, hm⟩ := ih (carry d (min d.2 c.2) ds) (carry c (min d.2 c.2) cs)
                (by omega)
              refine ⟨{ src := d.1, dst := c.1, amt := min d.2 c.2 } :: ts, ?_,
                Matching.step d c ds cs ts hm⟩
              unfold carry at hts
              rw [apply_ite (List.map liftParty), apply_ite (List.map liftParty)] at hts
              simp only [List.map_cons, liftParty, greedy, F64.min_num, F64.num_sub, F64.lt_num,
                F64.eps, decide_eq_true_eq]
              simp only [List.map_cons, liftParty] at hts
              rw [hts]
              simp [liftMove]

theorem matching_length {ds cs : List (Int × ℚ)} {ts : List Move} (h : Matching ds cs ts) :
    (ds = [] ∨ cs = [] → ts = []) ∧ ts.length ≤ ds.length + cs.length - 1 := by
  induction h with
  | doneDebtors cs => simp
  | doneCreditors ds => simp
  | step d c ds cs ts rest ih =>
      refine ⟨by simp, ?_⟩
      have hlen := carry_length_le d c ds cs
      simp only [List.length_cons]
      omega

/-! ## Classification as two filters -/

theorem classify_eq_aux (entries : List (Int × F64)) (acc : List Party × List Party) :
    entries.foldl classifyStep acc
      = (acc.1 ++ entries.filterMap debtorOf, acc.2 ++ entries.filterMap creditorOf) := by
  induction entries generalizing acc with
  | nil => simp
  | cons p rest ih =>
      rw [List.foldl_cons, ih]
      by_cases h1 : F64.lt p.2 (-F64.eps) = true
      · simp [classifyStep, debtorOf, creditorOf, h1, List.filterMap_cons]
      · by_cases h2 : F64.lt F64.eps p.2 = true
        · simp [classifyStep, debtorOf, creditorOf, h1, h2, List.filterMap_cons]
        · simp [classifyStep, debtorOf, creditorOf, h1, h2, List.filterMap_cons]

theorem classify_eq (entries : List (Int × F64)) :
    classify entries = (entries.filterMap debtorOf, entries.filterMap creditorOf) := by
  unfold classify
  rw [classify_eq_aux]
  simp

theorem debtors_eq (es : List Expense) (visit : List Int) :
    debtors es visit = (mapRange (balance es) visit).filterMap debtorOf := by
  simp [debtors, classify_eq]

theorem creditors_eq (es : List Expense) (visit : List Int) :
    creditors es visit = (mapRange (balance es) visit).filterMap creditorOf := by
  simp [creditors, classify_eq]

theorem filterMap_debtorOf_lift (eq : List (Int × ℚ)) :
    (eq.map liftEntry).filterMap debtorOf = (eq.filterMap debtorQ).map liftParty := by
  induction eq with
  | nil => simp
  | cons p rest ih =>
      simp only [List.map_cons, List.filterMap_cons, debtorOf, debtorQ, liftEntry, F64.eps,
        F64.neg_num, F64.lt_num, decide_eq_true_eq, ih]
      by_cases h : p.2 < -(1 / 100)
      · simp only [h, if_true, List.map_cons, liftParty]
      · simp only [h, if_false]

theorem filterMap_creditorOf_lift (eq : List (Int × ℚ)) :
    (eq.map liftEntry).filterMap creditorOf = (eq.filterMap creditorQ).map liftParty := by
  induction eq with
  | nil => simp
  | cons p rest ih =>
      simp only [List.map_cons, List.filterMap_cons, creditorOf, creditorQ, liftEntry, F64.eps,
        F64.neg_num, F64.lt_num, decide_eq_true_eq, ih]
      by_cases h : 1 / 100 < p.2
      · have h' : ¬ p.2 < -(1 / 100) := by intro h''; linarith
        simp only [h, h', if_true, if_false, List.map_cons, liftParty]
      · by_cases h' : p.2 < -(1 / 100)
        · simp only [h, h', if_true, if_false]
        · simp only [h, h', if_false]

theorem exists_lift_entries (entries : List (Int × F64))
    (h : ∀ p ∈ entries, ∃ q, p.2 = F64.num q) :
    ∃ eq : List (Int × ℚ), entries = eq.map liftEntry := by
  induction entries with
  | nil => exact ⟨[], rfl⟩
  | cons p rest ih =>
      obtain ⟨eq, heq⟩ := ih (fun p hp => h p (List.mem_cons_of_mem _ hp))
      obtain ⟨q, hq⟩ := h p (List.mem_cons_self _ _)
      refine ⟨(p.1, q) :: eq, ?_⟩
      obtain ⟨k, v⟩ := p
      simp only at hq
      simp [liftEntry, heq, hq]

/-! ## Values of `paid` and `balance`; the loop always finishes -/

theorem foldl_mapSet_mem {α : Type} (f : Int → α) (ks : List Int) (acc : List (Int × α))
    (hacc : ∀ p ∈ acc, p.2 = f p.1) :
    ∀ p ∈ ks.foldl (fun b k => mapSet b k (f k)) acc, p.2 = f p.1 := by
  induction ks generalizing acc with
  | nil => simpa using hacc
  | cons k rest ih =>
      rw [List.foldl_cons]
      apply ih
      intro p hp
      rcases mem_mapSet _ _ _ _ hp with h | h
      · rw [h]
      · exact hacc p h

theorem balance_mem (es : List Expense) (p : Int × F64) (hp : p ∈ balance es) :
    p.2 = (mapGet (paid es) p.1).getD F64.zero - perPerson es := by
  unfold balance at hp
  exact foldl_mapSet_mem (fun uid => (mapGet (paid es) uid).getD F64.zero - perPerson es)
    _ [] (by simp) p hp

theorem mem_mapRange {α : Type} (m : List (Int × α)) (visit : List Int) (p : Int × α)
    (hp : p ∈ mapRange m visit) : p ∈ m := by
  unfold mapRange at hp
  rw [List.mem_filterMap] at hp
  obtain ⟨k, _, hk⟩ := hp
  cases hg : mapGet m k with
  | none => simp [hg] at hk
  | some v =>
      simp only [hg, Option.map_some', Option.some.injEq] at hk
      rw [← hk]
      exact mem_of_mapGet m k v hg

theorem foldl_accStep_fst_num (es : List Expense) (acc : F64 × List (Int × F64)) (t : ℚ)
    (h : (es.foldl accStep acc).1 = F64.num t) :
    (∃ a, acc.1 = F64.num a) ∧ ∀ e ∈ es, ∃ q, e.Amount = F64.num q := by
  induction es generalizing acc with
  | nil => exact ⟨⟨t, by simpa using h⟩, by simp⟩
  | cons e rest ih =>
      rw [List.foldl_cons] at h
      obtain ⟨⟨a, ha⟩, hrest⟩ := ih _ h
      obtain ⟨x, y, hx, hy⟩ := F64.add_eq_num acc.1 e.Amount a ha
      refine ⟨⟨x, hx⟩, ?_⟩
      intro e' he'
      rcases List.mem_cons.mp he' with h' | h'
      · rw [h']; exact ⟨y, hy⟩
      · exact hrest e' h'

theorem foldl_accStep_snd_num (es : List Expense) (acc : F64 × List (Int × F64))
    (hes : ∀ e ∈ es, ∃ q, e.Amount = F64.num q)
    (hacc : ∀ p ∈ acc.2, ∃ q, p.2 = F64.num q) :
    ∀ p ∈ (es.foldl accStep acc).2, ∃ q, p.2 = F64.num q := by
  induction es generalizing acc with
  | nil => simpa using hacc
  | cons e rest ih =>
      rw [List.foldl_cons]
      apply ih _ (fun e' he' => hes e' (List.mem_cons_of_mem _ he'))
      intro p hp
      obtain ⟨y, hy⟩ := hes e (List.mem_cons_self _ _)
      rcases mem_mapSet _ _ _ _ hp with h | h
      · rw [h]
        cases hg : mapGet acc.2 e.UserID with
        | none => exact ⟨0 + y, by simp [hy, F64.zero, F64.num_add]⟩
        | some v =>
            obtain ⟨x, hx⟩ := hacc _ (mem_of_mapGet _ _ _ hg)
            simp only at hx
            exact ⟨x + y, by simp [hy, hx, F64.num_add]⟩
      · exact hacc p h

theorem paid_num (es : List Expense) (t : ℚ) (h : total es = F64.num t) :
    ∀ p ∈ paid es, ∃ q, p.2 = F64.num q :=
  foldl_accStep_snd_num es _ (foldl_accStep_fst_num es _ t h).2 (by simp)

theorem F64.sub_posInf_not_gt (x : F64) : F64.lt F64.eps (x - F64.posInf) = false := by
  cases x <;> rfl

theorem F64.sub_negInf_not_lt (x : F64) : F64.lt (x - F64.negInf) (-F64.eps) = false := by
  cases x <;> rfl

theorem F64.sub_nan (x : F64) : x - F64.nan = F64.nan := by
  cases x <;> rfl

theorem filterMap_eq_nil_of_none {α β : Type} (f : α → Option β) (l : List α)
    (h : ∀ a ∈ l, f a = none) : l.filterMap f = [] := by
  induction l with
  | nil => rfl
  | cons a rest ih =>
      rw [List.filterMap_cons, h a (List.mem_cons_self _ _)]
      exact ih (fun b hb => h b (List.mem_cons_of_mem _ hb))

theorem mapRange_nil {α : Type} (visit : List Int) :
    mapRange ([] : List (Int × α)) visit = [] := by
  unfold mapRange
  apply filterMap_eq_nil_of_none
  intro k _
  simp [mapGet]

/-- Auxiliary: the visited balances of any ledger feed the greedy loop with an
empty debtor list, an empty creditor list, or finite balances only. -/
theorem classified_cases (es : List Expense) (visit : List Int) :
    debtors es visit = [] ∨ creditors es visit = [] ∨
      ∃ eq : List (Int × ℚ), mapRange (balance es) visit = eq.map liftEntry := by
  rw [debtors_eq, creditors_eq]
  cases ht : total es with
  | num t =>
      by_cases hn : userIDs es = []
      · left
        have : balance es = [] := by simp [balance, hn]
        rw [this, mapRange_nil]
        rfl
      · right; right
        apply exists_lift_entries
        intro p hp
        have hb := balance_mem es p (mem_mapRange _ _ _ hp)
        have hpp : perPerson es = F64.num (t / ((userIDs es).length : ℚ)) := by
          have hlen : ((userIDs es).length : ℚ) ≠ 0 := by
            have : (userIDs es).length ≠ 0 := by
              intro h0; exact hn (List.length_eq_zero.mp h0)
            exact_mod_cast this
          unfold perPerson
          rw [ht]
          show F64.div (F64.num t) (F64.num _) = _
          simp [F64.div, hlen]
        rw [hb, hpp]
        cases hg : mapGet (paid es) p.1 with
        | none => simp [F64.zero, F64.num_sub]
        | some v =>
            obtain ⟨x, hx⟩ := paid_num es t ht _ (mem_of_mapGet _ _ _ hg)
            simp only at hx
            simp [hx, F64.num_sub]
  | posInf =>
      right; left
      apply filterMap_eq_nil_of_none
      intro p hp
      have hb := balance_mem es p (mem_mapRange _ _ _ hp)
      have hpp : perPerson es = F64.posInf := by
        unfold perPerson
        rw [ht]
        show F64.div F64.posInf (F64.num _) = _
        have : ¬ (((userIDs es).length : ℚ) < 0) := by
          have : (0 : ℚ) ≤ ((userIDs es).length : ℚ) := Nat.cast_nonneg _
          linarith
        simp [F64.div, F64.ofNat, this]
      rw [hpp] at hb
      have h1 := F64.sub_posInf_not_gt ((mapGet (paid es) p.1).getD F64.zero)
      rw [← hb] at h1
      simp [creditorOf, h1]
  | negInf =>
      left
      apply filterMap_eq_nil_of_none
      intro p hp
      have hb := balance_mem es p (mem_mapRange _ _ _ hp)
      have hpp : perPerson es = F64.negInf := by
        unfold perPerson
        rw [ht]
        show F64.div F64.negInf (F64.num _) = _
        have : ¬ (((userIDs es).length : ℚ) < 0) := by
          have : (0 : ℚ) ≤ ((userIDs es).length : ℚ) := Nat.cast_nonneg _
          linarith
        simp [F64.div, F64.ofNat, this]
      rw [hpp] at hb
      have h1 := F64.sub_negInf_not_lt ((mapGet (paid es) p.1).getD F64.zero)
      rw [← hb] at h1
      simp [debtorOf, h1]
  | nan =>
      left
      apply filterMap_eq_nil_of_none
      intro p hp
      have hb := balance_mem es p (mem_mapRange _ _ _ hp)
      have hpp : perPerson es = F64.nan := by
        unfold perPerson
        rw [ht]
        rfl
      rw [hpp, F64.sub_nan] at hb
      have h1 : F64.lt p.2 (-F64.eps) = false := by rw [hb]; rfl
      simp [debtorOf, h1]

/-- Auxiliary: on the classified lists of any ledger the greedy loop finishes
within `len(debtors) + len(creditors)` iterations. -/
theorem greedy_classified (users : List (Int × String)) (es : List Expense) (visit : List Int) :
    ∃ ts, greedy users ((debtors es visit).length + (creditors es visit).length)
            (debtors es visit) (creditors es visit) = some ts
      ∧ (debtors es visit = [] ∨ creditors es visit = [] → ts = [])
      ∧ ts.length ≤ (debtors es visit).length + (creditors es visit).length - 1 := by
  rcases classified_cases es visit with h | h | ⟨eq, h⟩
  · rw [h]; exact ⟨[], greedy_nil_left _ _ _, by simp, by simp⟩
  · rw [h]; exact ⟨[], greedy_nil_right _ _ _, by simp, by simp⟩
  · have hd : debtors es visit = (eq.filterMap debtorQ).map liftParty := by
      rw [debtors_eq, h, filterMap_debtorOf_lift]
    have hc : creditors es visit = (eq.filterMap creditorQ).map liftParty := by
      rw [creditors_eq, h, filterMap_creditorOf_lift]
    rw [hd, hc]
    obtain ⟨ts, hts, hm⟩ := greedy_lift users
      ((eq.filterMap debtorQ).length + (eq.filterMap creditorQ).length)
      (eq.filterMap debtorQ) (eq.filterMap creditorQ) (by omega)
    have hl := matching_length hm
    refine ⟨ts.map (liftMove users), by simpa using hts, ?_, by simpa using hl.2⟩
    intro h0
    have : ts = [] := hl.1 (by simpa using h0)
    simp [this]

theorem settle_total (s : Session) (visit : List Int) : ∃ r, settle s visit = some r := by
  unfold settle
  by_cases h0 : s.Expenses.length = 0
  · simp [h0]
  · by_cases h1 : (debtors s.Expenses visit).length = 0 ∧ (creditors s.Expenses visit).length = 0
    · exact ⟨Reply.allEqual, by simp [h0, h1]⟩
    · obtain ⟨ts, hts, _⟩ := greedy_classified s.Users s.Expenses visit
      exact ⟨Reply.transfers ts, by simp only [h0, h1, if_false, hts, Option.map_some']⟩

theorem handleMessage_total (sessions : Store) (msg : Message) (visit : List Int) :
    ∃ r, handleMessage sessions msg visit = some r := by
  obtain ⟨chat, sender, text⟩ := msg
  cases text with
  | add arg =>
      cases arg with
      | value v =>
          by_cases h : F64.le v F64.zero = true
          · simp [handleMessage, h]
          · simp [handleMessage, h]
      | _ => simp [handleMessage]
  | calculate =>
      simp only [handleMessage]
      obtain ⟨r, hr⟩ := settle_total
        { Expenses := (getOrCreateSession sessions chat).2.Expenses,
          Users := mapSet (getOrCreateSession sessions chat).2.Users sender.ID
            (if sender.Username = "" then sender.FirstName else sender.Username) } visit
      exact ⟨_, by rw [hr]; rfl⟩
  | _ => simp [handleMessage]

theorem run_total (msgs : List (Message × List Int)) :
    ∀ sessions : Store, ∃ st, run sessions msgs = some st := by
  induction msgs with
  | nil => intro sessions; exact ⟨sessions, rfl⟩
  | cons m rest ih =>
      intro sessions
      obtain ⟨msg, visit⟩ := m
      obtain ⟨r, hr⟩ := handleMessage_total sessions msg visit
      obtain ⟨st, hst⟩ := ih r.1
      exact ⟨st, by simp [run, hr, hst]⟩

/-! ## C4 and C5: empty ledger, single participant -/

theorem mapSet_ne_nil {α : Type} (m : List (Int × α)) (k : Int) (v : α) : mapSet m k v ≠ [] := by
  cases m with
  | nil => simp [mapSet]
  | cons p rest =>
      obtain ⟨k1, v1⟩ := p
      by_cases h : k1 = k <;> simp [mapSet, h]

theorem foldl_accStep_snd_ne_nil (es : List Expense) (acc : F64 × List (Int × F64))
    (h : es ≠ [] ∨ acc.2 ≠ []) : (es.foldl accStep acc).2 ≠ [] := by
  induction es generalizing acc with
  | nil => simpa using h
  | cons e rest ih =>
      rw [List.foldl_cons]
      apply ih
      right
      exact mapSet_ne_nil _ _ _

theorem userIDs_length_pos (es : List Expense) (h : es ≠ []) : 1 ≤ (userIDs es).length := by
  have h1 : paid es ≠ [] := foldl_accStep_snd_ne_nil es _ (Or.inl h)
  unfold userIDs mapKeys
  rw [List.length_map]
  exact List.length_pos.mpr h1

/-- C4: a ledger without entries makes settle report "no data" (the guard sits
before the division by the headcount); a ledger with at least one entry has a
headcount of at least 1 and settle returns a reply other than "no data". -/
theorem settle_noData_iff_empty (s : Session) (visit : List Int) :
    (s.Expenses = [] → settle s visit = some Reply.noData) ∧
    (s.Expenses ≠ [] →
      1 ≤ (userIDs s.Expenses).length ∧
      ∃ r, settle s visit = some r ∧ r ≠ Reply.noData) := by
  constructor
  · intro h
    simp [settle, h]
  · intro h
    refine ⟨userIDs_length_pos _ h, ?_⟩
    have h0 : ¬ s.Expenses.length = 0 := fun h' => h (List.length_eq_zero.mp h')
    unfold settle
    by_cases h1 : (debtors s.Expenses visit).length = 0 ∧ (creditors s.Expenses visit).length = 0
    · exact ⟨Reply.allEqual, by simp [h0, h1], by simp⟩
    · obtain ⟨ts, hts, _⟩ := greedy_classified s.Users s.Expenses visit
      exact ⟨Reply.transfers ts, by simp only [h0, h1, if_false, hts, Option.map_some'], by simp⟩

/-- Witness of C4 on the empty ledger and on a ledger with one entry. -/
theorem settle_noData_iff_empty_witness :
    settle { Expenses := [], Users := [] } [] = some Reply.noData ∧
    (1 ≤ (userIDs [{ UserID := 1, Username := "a", Amount := F64.num 5 }]).length ∧
      ∃ r, settle { Expenses := [{ UserID := 1, Username := "a", Amount := F64.num 5 }],
                    Users := [(1, "a")] } [1] = some r ∧ r ≠ Reply.noData) :=
  ⟨(settle_noData_iff_empty { Expenses := [], Users := [] } []).1 rfl,
   (settle_noData_iff_empty
      { Expenses := [{ UserID := 1, Username := "a", Amount := F64.num 5 }],
        Users := [(1, "a")] } [1]).2 (by simp)⟩

theorem foldl_accStep_single (uid : Int) (es : List Expense)
    (h : ∀ e ∈ es, e.UserID = uid) (x : F64) :
    ∃ y, es.foldl accStep (x, [(uid, x)]) = (y, [(uid, y)]) := by
  induction es generalizing x with
  | nil => exact ⟨x, rfl⟩
  | cons e rest ih =>
      rw [List.foldl_cons]
      have he : e.UserID = uid := h e (List.mem_cons_self _ _)
      have : accStep (x, [(uid, x)]) e = (x + e.Amount, [(uid, x + e.Amount)]) := by
        simp [accStep, he, mapGet, mapSet]
      rw [this]
      exact ih (fun e' he' => h e' (List.mem_cons_of_mem _ he')) _

theorem F64.posInf_div_ofNat (n : Nat) : F64.posInf / F64.ofNat n = F64.posInf := by
  show F64.div F64.posInf (F64.num (n : ℚ)) = _
  have h : ¬ ((n : ℚ) < 0) := not_lt.mpr (Nat.cast_nonneg n)
  simp [F64.div, h]

theorem F64.negInf_div_ofNat (n : Nat) : F64.negInf / F64.ofNat n = F64.negInf := by
  show F64.div F64.negInf (F64.num (n : ℚ)) = _
  have h : ¬ ((n : ℚ) < 0) := not_lt.mpr (Nat.cast_nonneg n)
  simp [F64.div, h]

theorem F64.self_sub_div_one_not_debtor (y : F64) :
    F64.lt (y - y / F64.ofNat 1) (-F64.eps) = false := by
  cases y with
  | num a =>
      show F64.lt (F64.sub (F64.num a) (F64.div (F64.num a) (F64.num ((1 : ℕ) : ℚ)))) _ = false
      simp [F64.div, F64.sub, F64.neg, F64.add, F64.lt, F64.eps, F64.neg_num]
  | posInf => rw [F64.posInf_div_ofNat]; rfl
  | negInf => rw [F64.negInf_div_ofNat]; rfl
  | nan => rfl

theorem F64.self_sub_div_one_not_creditor (y : F64) :
    F64.lt F64.eps (y - y / F64.ofNat 1) = false := by
  cases y with
  | num a =>
      show F64.lt _ (F64.sub (F64.num a) (F64.div (F64.num a) (F64.num ((1 : ℕ) : ℚ)))) = false
      simp [F64.div, F64.sub, F64.neg, F64.add, F64.lt, F64.eps]
  | posInf => rw [F64.posInf_div_ofNat]; rfl
  | negInf => rw [F64.negInf_div_ofNat]; rfl
  | nan => rfl

/-- C5: when all entries of a non-empty ledger belong to one participant, settle
finds neither a debtor nor a creditor and reports "already settled" (no
transfers), whatever the amounts. -/
theorem single_participant_already_settled (s : Session) (visit : List Int) (uid : Int)
    (hne : s.Expenses ≠ []) (hsingle : ∀ e ∈ s.Expenses, e.UserID = uid) :
    settle s visit = some Reply.allEqual ∧
    debtors s.Expenses visit = [] ∧ creditors s.Expenses visit = [] := by
  obtain ⟨es, users⟩ := s
  simp only at hne hsingle ⊢
  cases es with
  | nil => exact absurd rfl hne
  | cons e rest =>
      have he : e.UserID = uid := hsingle e (List.mem_cons_self _ _)
      obtain ⟨y, hy⟩ := foldl_accStep_single uid rest
        (fun e' he' => hsingle e' (List.mem_cons_of_mem _ he')) (F64.zero + e.Amount)
      have hacc : accumulate (e :: rest) = (y, [(uid, y)]) := by
        unfold accumulate
        rw [List.foldl_cons]
        have : accStep (F64.zero, []) e = (F64.zero + e.Amount, [(uid, F64.zero + e.Amount)]) := by
          simp [accStep, he, mapGet, mapSet]
        rw [this, hy]
      have hbal : balance (e :: rest) = [(uid, y - y / F64.ofNat 1)] := by
        simp [balance, userIDs, perPerson, total, paid, hacc, mapKeys, mapSet, mapGet]
      have hd : debtors (e :: rest) visit = [] := by
        rw [debtors_eq]
        apply filterMap_eq_nil_of_none
        intro p hp
        have hp' := mem_mapRange _ _ _ hp
        rw [hbal] at hp'
        simp only [List.mem_singleton] at hp'
        rw [hp']
        simp [debtorOf, F64.self_sub_div_one_not_debtor]
      have hc : creditors (e :: rest) visit = [] := by
        rw [creditors_eq]
        apply filterMap_eq_nil_of_none
        intro p hp
        have hp' := mem_mapRange _ _ _ hp
        rw [hbal] at hp'
        simp only [List.mem_singleton] at hp'
        rw [hp']
        simp [creditorOf, F64.self_sub_div_one_not_creditor, F64.self_sub_div_one_not_debtor]
      refine ⟨?_, hd, hc⟩
      simp [settle, hd, hc]

/-- Witness of C5: one participant with two expenses. -/
theorem single_participant_already_settled_witness :
    settle { Expenses := [{ UserID := 7, Username := "a", Amount := F64.num 40 },
                          { UserID := 7, Username := "a", Amount := F64.num 60 }],
             Users := [(7, "a")] } [7] = some Reply.allEqual ∧
    debtors [{ UserID := 7, Username := "a", Amount := F64.num 40 },
             { UserID := 7, Username := "a", Amount := F64.num 60 }] [7] = [] ∧
    creditors [{ UserID := 7, Username := "a", Amount := F64.num 40 },
               { UserID := 7, Username := "a", Amount := F64.num 60 }] [7] = [] :=
  single_participant_already_settled
    { Expenses := [{ UserID := 7, Username := "a", Amount := F64.num 40 },
                   { UserID := 7, Username := "a", Amount := F64.num 60 }],
      Users := [(7, "a")] } [7] 7 (by simp) (by simp)

/-! ## C7 and C9: reset and the name invariant -/

theorem getOrCreateSession_get (sessions : Store) (chatID : Int) :
    mapGet (getOrCreateSession sessions chatID).1 chatID
      = some (getOrCreateSession sessions chatID).2 := by
  unfold getOrCreateSession
  cases h : mapGet sessions chatID with
  | none => simp [mapGet_mapSet_same]
  | some s => simp [h]

theorem getOrCreateSession_other (sessions : Store) (chatID k : Int) (h : k ≠ chatID) :
    mapGet (getOrCreateSession sessions chatID).1 k = mapGet sessions k := by
  unfold getOrCreateSession
  cases h' : mapGet sessions chatID with
  | none => simp [mapGet_mapSet_other _ _ _ _ h]
  | some s => simp

theorem getOrCreateSession_absent (sessions : Store) (chatID : Int)
    (h : mapGet sessions chatID = none) :
    (getOrCreateSession sessions chatID).2 = { Expenses := [], Users := [] } := by
  simp [getOrCreateSession, h]

/-- C7: `/reset` removes the chat's session from the store (the key is absent
afterwards) and leaves every other chat's session as it was; a `/calc` in the
same chat right afterwards works on a fresh session without expenses and
reports "no data". -/
theorem reset_then_settle_reports_noData (sessions : Store) (chatID : Int)
    (who whoNext : User) (visit visitNext : List Int) :
    ∃ st, handleMessage sessions { ChatID := chatID, From := who, Text := Command.reset } visit
            = some (st, Reply.resetDone)
      ∧ mapGet st chatID = none
      ∧ chatID ∉ mapKeys st
      ∧ (∀ k, k ≠ chatID → mapGet st k = mapGet sessions k)
      ∧ (getOrCreateSession st chatID).2 = { Expenses := [], Users := [] }
      ∧ ∃ st', handleMessage st
                { ChatID := chatID, From := whoNext, Text := Command.calculate } visitNext
            = some (st', Reply.noData) := by
  refine ⟨mapDelete (mapSet (getOrCreateSession sessions chatID).1 chatID
      { Expenses := (getOrCreateSession sessions chatID).2.Expenses,
        Users := mapSet (getOrCreateSession sessions chatID).2.Users who.ID
          (if who.Username = "" then who.FirstName else who.Username) }) chatID,
    rfl, mapGet_mapDelete_same _ _, ?_, ?_, ?_, ?_⟩
  · intro hmem
    unfold mapKeys at hmem
    rw [List.mem_map] at hmem
    obtain ⟨p, hp, hk⟩ := hmem
    have h1 := mapGet_of_mem_isSome _ p hp
    rw [hk, mapGet_mapDelete_same] at h1
    simp at h1
  · intro k hk
    rw [mapGet_mapDelete_other _ _ _ hk, mapGet_mapSet_other _ _ _ _ hk,
      getOrCreateSession_other _ _ _ hk]
  · exact getOrCreateSession_absent _ _ (mapGet_mapDelete_same _ _)
  · simp only [handleMessage]
    rw [getOrCreateSession_absent _ _ (mapGet_mapDelete_same _ _)]
    simp [settle]

theorem mapGet_mapSet_isSome {α : Type} (m : List (Int × α)) (k k' : Int) (v : α)
    (h : (mapGet m k').isSome = true) : (mapGet (mapSet m k v) k').isSome = true := by
  by_cases hk : k' = k
  · rw [hk, mapGet_mapSet_same]; rfl
  · rw [mapGet_mapSet_other _ _ _ _ hk]; exact h

theorem getOrCreateSession_resolved (sessions : Store) (chatID : Int)
    (h : ∀ p ∈ sessions, NamesResolved p.2) :
    NamesResolved (getOrCreateSession sessions chatID).2 ∧
    ∀ p ∈ (getOrCreateSession sessions chatID).1, NamesResolved p.2 := by
  unfold getOrCreateSession
  cases hg : mapGet sessions chatID with
  | none =>
      refine ⟨by simp [NamesResolved], ?_⟩
      intro p hp
      rcases mem_mapSet _ _ _ _ hp with h' | h'
      · rw [h']; simp [NamesResolved]
      · exact h p h'
  | some s => exact ⟨h _ (mem_of_mapGet _ _ _ hg), h⟩

theorem handleMessage_resolved (sessions : Store) (msg : Message) (visit : List Int)
    (r : Store × Reply) (h : ∀ p ∈ sessions, NamesResolved p.2)
    (hr : handleMessage sessions msg visit = some r) : ∀ p ∈ r.1, NamesResolved p.2 := by
  obtain ⟨chat, sender, text⟩ := msg
  obtain ⟨hs, hst⟩ := getOrCreateSession_resolved sessions chat h
  have hsession : NamesResolved
      { Expenses := (getOrCreateSession sessions chat).2.Expenses,
        Users := mapSet (getOrCreateSession sessions chat).2.Users sender.ID
          (if sender.Username = "" then sender.FirstName else sender.Username) } := by
    intro e he
    exact mapGet_mapSet_isSome _ _ _ _ (hs e he)
  have hstored : ∀ p ∈ mapSet (getOrCreateSession sessions chat).1 chat
      { Expenses := (getOrCreateSession sessions chat).2.Expenses,
        Users := mapSet (getOrCreateSession sessions chat).2.Users sender.ID
          (if sender.Username = "" then sender.FirstName else sender.Username) },
      NamesResolved p.2 := by
    intro p hp
    rcases mem_mapSet _ _ _ _ hp with h' | h'
    · rw [h']; exact hsession
    · exact hst p h'
  cases text with
  | add arg =>
      cases arg with
      | value v =>
          by_cases hle : F64.le v F64.zero = true
          · simp only [handleMessage, hle, if_true, Option.some.injEq] at hr
            rw [← hr]; exact hstored
          · have hle' : F64.le v F64.zero = false := by simpa using hle
            simp only [handleMessage, hle', Bool.false_eq_true, if_false,
              Option.some.injEq] at hr
            rw [← hr]
            intro p hp
            rcases mem_mapSet _ _ _ _ hp with h' | h'
            · rw [h']
              intro e he
              simp only [List.mem_append, List.mem_singleton] at he
              rcases he with he | he
              · exact hsession e he
              · rw [he]
                simp only
                rw [mapGet_mapSet_same]; rfl
            · exact hst p h'
      | missing =>
          simp only [handleMessage, Option.some.injEq] at hr
          rw [← hr]; exact hstored
      | malformed =>
          simp only [handleMessage, Option.some.injEq] at hr
          rw [← hr]; exact hstored
  | calculate =>
      simp only [handleMessage, Option.map_eq_some'] at hr
      obtain ⟨a, _, ha⟩ := hr
      rw [← ha]; exact hstored
  | reset =>
      simp only [handleMessage, Option.some.injEq] at hr
      rw [← hr]
      intro p hp
      exact hstored p (mem_mapDelete _ _ _ hp)
  | blank =>
      simp only [handleMessage, Option.some.injEq] at hr
      rw [← hr]; exact hstored
  | start =>
      simp only [handleMessage, Option.some.injEq] at hr
      rw [← hr]; exact hstored
  | other =>
      simp only [handleMessage, Option.some.injEq] at hr
      rw [← hr]; exact hstored

theorem run_resolved (msgs : List (Message × List Int)) :
    ∀ sessions : Store, (∀ p ∈ sessions, NamesResolved p.2) →
      ∃ st, run sessions msgs = some st ∧ ∀ p ∈ st, NamesResolved p.2 := by
  induction msgs with
  | nil => intro sessions h; exact ⟨sessions, rfl, h⟩
  | cons m rest ih =>
      intro sessions h
      obtain ⟨msg, visit⟩ := m
      obtain ⟨r, hr⟩ := handleMessage_total sessions msg visit
      obtain ⟨st, hst, hres⟩ := ih r.1 (handleMessage_resolved sessions msg visit r h hr)
      exact ⟨st, by simp [run, hr, hst], hres⟩

/-! ## C6 and C8: concrete scenarios -/

/-- C6 (counterexample): in scenario 1 only Alice has an expense, so the reply to
`/calc` is not the single transfer "Bob → Alice: 50.00". -/
theorem scenario1_not_one_transfer :
    replyAfter scenario1 scenario1Calc [1]
      ≠ some (Reply.transfers [{ debtor := 2, creditor := 1, fromName := "Bob",
                                 toName := "Alice", amount := F64.num 50 }]) := by
  decide!

/-- C6 (amended): in scenario 1 the ledger holds Alice's expense only, the
headcount is 1, Alice's balance is 0, there is neither debtor nor creditor, and
the reply to `/calc` is "already settled". -/
theorem scenario1_already_settled :
    (run [] scenario1).map (fun st => expensesOf st 10)
      = some [{ UserID := 1, Username := "Alice", Amount := F64.num 100 }]
    ∧ userIDs [{ UserID := 1, Username := "Alice", Amount := F64.num 100 }] = [1]
    ∧ balance [{ UserID := 1, Username := "Alice", Amount := F64.num 100 }] = [(1, F64.num 0)]
    ∧ replyAfter scenario1 scenario1Calc [1] = some Reply.allEqual := by
  decide!

/-- C8 (counterexample): two `/calc` in a row on the same ledger, the balance map
being ranged in two different orders, produce different transfer lists. -/
theorem settle_twice_differs :
    [1, 2, 3, 4].Perm (mapKeys (balance (expensesOf fourPayers 20)))
    ∧ [1, 2, 4, 3].Perm (mapKeys (balance (expensesOf fourPayers 20)))
    ∧ handleMessage fourPayers fourPayersCalc [1, 2, 3, 4]
        = some (fourPayers, Reply.transfers
            [{ debtor := 3, creditor := 1, fromName := "cat", toName := "ann", amount := F64.num 10 },
             { debtor := 4, creditor := 1, fromName := "dan", toName := "ann", amount := F64.num 5 },
             { debtor := 4, creditor := 2, fromName := "dan", toName := "ben", amount := F64.num 15 }])
    ∧ handleMessage fourPayers fourPayersCalc [1, 2, 4, 3]
        = some (fourPayers, Reply.transfers
            [{ debtor := 4, creditor := 1, fromName := "dan", toName := "ann", amount := F64.num 15 },
             { debtor := 4, creditor := 2, fromName := "dan", toName := "ben", amount := F64.num 5 },
             { debtor := 3, creditor := 2, fromName := "cat", toName := "ben", amount := F64.num 10 }])
    ∧ (handleMessage fourPayers fourPayersCalc [1, 2, 3, 4]).map Prod.snd
        ≠ (handleMessage fourPayers fourPayersCalc [1, 2, 4, 3]).map Prod.snd := by
  decide!

/-! ## C3 and C10 -/

theorem getOrCreateSession_present (sessions : Store) (chatID : Int) (s : Session)
    (h : mapGet sessions chatID = some s) : getOrCreateSession sessions chatID = (sessions, s) := by
  simp [getOrCreateSession, h]

theorem expensesOf_getOrCreateSession (sessions : Store) (chatID : Int) :
    (getOrCreateSession sessions chatID).2.Expenses = expensesOf sessions chatID := by
  unfold getOrCreateSession expensesOf
  cases h : mapGet sessions chatID <;> simp

theorem expensesOf_mapSet (sessions : Store) (chatID : Int) (s : Session) :
    expensesOf (mapSet sessions chatID s) chatID = s.Expenses := by
  simp [expensesOf, mapGet_mapSet_same]

/-- C3 (code at the failing inputs): `/add nan` and `/add inf` are not rejected;
the `NaN` or `+Inf` amount is appended to the expenses of the chat and the reply
is the confirmation. -/
theorem add_accepts_nan_and_inf (sessions : Store) (chatID : Int) (who : User)
    (visit : List Int) :
    (∃ st t, handleMessage sessions
        { ChatID := chatID, From := who, Text := Command.add (AddArg.value F64.nan) } visit
          = some (st, Reply.added (displayName who) F64.nan t)
        ∧ expensesOf st chatID = expensesOf sessions chatID ++
            [{ UserID := who.ID, Username := displayName who, Amount := F64.nan }])
    ∧ (∃ st t, handleMessage sessions
        { ChatID := chatID, From := who, Text := Command.add (AddArg.value F64.posInf) } visit
          = some (st, Reply.added (displayName who) F64.posInf t)
        ∧ expensesOf st chatID = expensesOf sessions chatID ++
            [{ UserID := who.ID, Username := displayName who, Amount := F64.posInf }]) := by
  constructor
  · refine ⟨_, _, rfl, ?_⟩
    rw [expensesOf_mapSet, ← expensesOf_getOrCreateSession]
    rfl
  · refine ⟨_, _, rfl, ?_⟩
    rw [expensesOf_mapSet, ← expensesOf_getOrCreateSession]
    rfl

/-- What `/add` does on every argument: without a second field the reply is the
usage hint, with a malformed number or a value `<= 0` it is the "positive number"
hint, in both cases with the expenses unchanged; any other value (among them
`NaN` and `+Inf`) is appended as one expense at the end. -/
theorem add_rejects_or_appends (sessions : Store) (chatID : Int) (who : User) (arg : AddArg)
    (visit : List Int) :
    ∃ st reply, handleMessage sessions
        { ChatID := chatID, From := who, Text := Command.add arg } visit = some (st, reply)
      ∧ (arg = AddArg.missing → reply = Reply.usage ∧
            expensesOf st chatID = expensesOf sessions chatID)
      ∧ (arg = AddArg.malformed → reply = Reply.badAmount ∧
            expensesOf st chatID = expensesOf sessions chatID)
      ∧ (∀ v, arg = AddArg.value v → F64.le v F64.zero = true →
            reply = Reply.badAmount ∧ expensesOf st chatID = expensesOf sessions chatID)
      ∧ (∀ v, arg = AddArg.value v → F64.le v F64.zero = false →
            (∃ t, reply = Reply.added (displayName who) v t) ∧
            expensesOf st chatID = expensesOf sessions chatID ++
              [{ UserID := who.ID, Username := displayName who, Amount := v }]) := by
  cases arg with
  | missing =>
      refine ⟨_, _, rfl, ?_, by simp, by simp, by simp⟩
      intro _
      exact ⟨rfl, by rw [expensesOf_mapSet, ← expensesOf_getOrCreateSession]⟩
  | malformed =>
      refine ⟨_, _, rfl, by simp, ?_, by simp, by simp⟩
      intro _
      exact ⟨rfl, by rw [expensesOf_mapSet, ← expensesOf_getOrCreateSession]⟩
  | value v =>
      cases hle : F64.le v F64.zero with
      | true =>
          refine ⟨_, _, (by simp only [handleMessage, hle, if_true]; rfl), by simp, by simp, ?_, ?_⟩
          · intro v' hv' _
            exact ⟨rfl, by rw [expensesOf_mapSet, ← expensesOf_getOrCreateSession]⟩
          · intro v' hv' h'
            simp only [AddArg.value.injEq] at hv'
            rw [← hv', hle] at h'
            simp at h'
      | false =>
          refine ⟨_, _, (by simp only [handleMessage, hle, Bool.false_eq_true, if_false]; rfl),
            by simp, by simp, ?_, ?_⟩
          · intro v' hv' h'
            simp only [AddArg.value.injEq] at hv'
            rw [← hv', hle] at h'
            simp at h'
          · intro v' hv' _
            simp only [AddArg.value.injEq] at hv'
            subst hv'
            exact ⟨⟨_, rfl⟩, by rw [expensesOf_mapSet, ← expensesOf_getOrCreateSession]; rfl⟩

/-- C10: the greedy loop finishes within `len(debtors) + len(creditors)`
iterations, on all lists of finite amounts and on the debtor and creditor lists
of every ledger (whatever its amounts); it emits nothing when one list is empty
and at most `len(debtors) + len(creditors) - 1` transfers otherwise. -/
theorem greedy_terminates_with_bound (users : List (Int × String)) :
    (∀ ds cs : List (Int × ℚ),
      ∃ ts, greedy users (ds.length + cs.length) (ds.map liftParty) (cs.map liftParty) = some ts
        ∧ (ds = [] ∨ cs = [] → ts = [])
        ∧ ts.length ≤ ds.length + cs.length - 1)
    ∧ (∀ (expenses : List Expense) (visit : List Int),
      ∃ ts, greedy users ((debtors expenses visit).length + (creditors expenses visit).length)
              (debtors expenses visit) (creditors expenses visit) = some ts
        ∧ (debtors expenses visit = [] ∨ creditors expenses visit = [] → ts = [])
        ∧ ts.length ≤ (debtors expenses visit).length + (creditors expenses visit).length - 1) := by
  constructor
  · intro ds cs
    obtain ⟨ts, hts, hm⟩ := greedy_lift users (ds.length + cs.length) ds cs (by omega)
    have hl := matching_length hm
    refine ⟨ts.map (liftMove users), hts, ?_, by simpa using hl.2⟩
    intro h0
    simp [hl.1 h0]
  · intro expenses visit
    exact greedy_classified users expenses visit

/-! ## Maps with distinct keys -/

theorem mapGet_eq_none_of_not_mem {α : Type} (m : List (Int × α)) (k : Int)
    (h : k ∉ mapKeys m) : mapGet m k = none := by
  cases hg : mapGet m k with
  | none => rfl
  | some v =>
      exfalso
      apply h
      exact List.mem_map.mpr ⟨(k, v), mem_of_mapGet _ _ _ hg, rfl⟩

theorem carry_mem (p : Int × ℚ) (m : ℚ) (l : List (Int × ℚ)) (q : Int × ℚ) (h : q ∈ l) :
    q ∈ carry p m l := by
  unfold carry
  by_cases hc : p.2 - m < 1 / 100
  · simp only [hc, if_true]; exact h
  · simp only [hc, if_false]; exact List.mem_cons_of_mem _ h

theorem greedy_lines (users : List (Int × String)) :
    ∀ (fuel : Nat) (ds cs : List Party) (ts : List Transfer),
      greedy users fuel ds cs = some ts →
      ∀ t ∈ ts, t.debtor ∈ ds.map Party.id ∧ t.creditor ∈ cs.map Party.id
        ∧ t.fromName = (mapGet users t.debtor).getD ""
        ∧ t.toName = (mapGet users t.creditor).getD "" := by
  intro fuel
  induction fuel with
  | zero =>
      intro ds cs ts h
      cases ds with
      | nil => rw [greedy_nil_left] at h; cases h; simp
      | cons d ds =>
          cases cs with
          | nil => rw [greedy_nil_right] at h; cases h; simp
          | cons c cs => simp [greedy] at h
  | succ fuel ih =>
      intro ds cs ts h
      cases ds with
      | nil => rw [greedy_nil_left] at h; cases h; simp
      | cons d ds =>
          cases cs with
          | nil => rw [greedy_nil_right] at h; cases h; simp
          | cons c cs =>
              simp only [greedy, Option.map_eq_some'] at h
              obtain ⟨rest, hrest, hts⟩ := h
              have hih := ih _ _ rest hrest
              intro t ht
              rw [← hts] at ht
              rcases List.mem_cons.mp ht with h' | h'
              · rw [h']; simp
              · obtain ⟨h1, h2, h3, h4⟩ := hih t h'
                refine ⟨?_, ?_, h3, h4⟩
                · split at h1
                  · exact List.mem_map.mpr (by
                      obtain ⟨p, hp, hpe⟩ := List.mem_map.mp h1
                      exact ⟨p, List.mem_cons_of_mem _ hp, hpe⟩)
                  · simpa using h1
                · split at h2
                  · exact List.mem_map.mpr (by
                      obtain ⟨p, hp, hpe⟩ := List.mem_map.mp h2
                      exact ⟨p, List.mem_cons_of_mem _ hp, hpe⟩)
                  · simpa using h2

theorem foldl_mapSet_keys {α : Type} (f : Int → α) (ks : List Int) (acc : List (Int × α)) :
    ∀ p ∈ ks.foldl (fun b k => mapSet b k (f k)) acc, p.1 ∈ ks ∨ p ∈ acc := by
  induction ks generalizing acc with
  | nil => intro p hp; exact Or.inr hp
  | cons k rest ih =>
      intro p hp
      rw [List.foldl_cons] at hp
      rcases ih _ p hp with h | h
      · exact Or.inl (List.mem_cons_of_mem _ h)
      · rcases mem_mapSet _ _ _ _ h with h' | h'
        · rw [h']; exact Or.inl (List.mem_cons_self _ _)
        · exact Or.inr h'

theorem foldl_accStep_keys (es : List Expense) (acc : F64 × List (Int × F64)) :
    ∀ p ∈ (es.foldl accStep acc).2, (∃ e ∈ es, e.UserID = p.1) ∨ p ∈ acc.2 := by
  induction es generalizing acc with
  | nil => intro p hp; exact Or.inr hp
  | cons e rest ih =>
      intro p hp
      rw [List.foldl_cons] at hp
      rcases ih _ p hp with ⟨e', he', hk⟩ | h
      · exact Or.inl ⟨e', List.mem_cons_of_mem _ he', hk⟩
      · rcases mem_mapSet _ _ _ _ h with h' | h'
        · rw [h']; exact Or.inl ⟨e, List.mem_cons_self _ _, rfl⟩
        · exact Or.inr h'

theorem balance_key_has_expense (es : List Expense) (p : Int × F64) (hp : p ∈ balance es) :
    ∃ e ∈ es, e.UserID = p.1 := by
  unfold balance at hp
  rcases foldl_mapSet_keys _ _ _ p hp with h | h
  · unfold userIDs mapKeys at h
    obtain ⟨x, hx, hxk⟩ := List.mem_map.mp h
    have hx' : x ∈ (es.foldl accStep (F64.zero, [])).2 := hx
    rcases foldl_accStep_keys es _ x hx' with ⟨e, he, hk⟩ | h'
    · exact ⟨e, he, by rw [hk, hxk]⟩
    · simp at h'
  · simp at h

theorem debtor_has_expense (es : List Expense) (visit : List Int) (x : Party)
    (hx : x ∈ debtors es visit) : ∃ e ∈ es, e.UserID = x.id := by
  rw [debtors_eq, List.mem_filterMap] at hx
  obtain ⟨p, hp, hpx⟩ := hx
  obtain ⟨e, he, hk⟩ := balance_key_has_expense es p (mem_mapRange _ _ _ hp)
  refine ⟨e, he, ?_⟩
  unfold debtorOf at hpx
  split at hpx
  · simp only [Option.some.injEq] at hpx
    rw [← hpx]; exact hk
  · cases hpx

theorem creditor_has_expense (es : List Expense) (visit : List Int) (x : Party)
    (hx : x ∈ creditors es visit) : ∃ e ∈ es, e.UserID = x.id := by
  rw [creditors_eq, List.mem_filterMap] at hx
  obtain ⟨p, hp, hpx⟩ := hx
  obtain ⟨e, he, hk⟩ := balance_key_has_expense es p (mem_mapRange _ _ _ hp)
  refine ⟨e, he, ?_⟩
  unfold creditorOf at hpx
  split at hpx
  · cases hpx
  · split at hpx
    · simp only [Option.some.injEq] at hpx
      rw [← hpx]; exact hk
    · cases hpx

/-- Auxiliary: on a session whose expense ids all have names, every line of a
settlement report carries the names stored for its payer and payee. -/
theorem settle_names_resolved (s : Session) (visit : List Int) (hres : NamesResolved s)
    (r : Reply) (hr : settle s visit = some r) :
    ∀ t ∈ emitted r, mapGet s.Users t.debtor = some t.fromName
      ∧ mapGet s.Users t.creditor = some t.toName := by
  unfold settle at hr
  split at hr
  · cases hr; simp [emitted]
  · simp only at hr
    split at hr
    · cases hr; simp [emitted]
    · simp only [Option.map_eq_some'] at hr
      obtain ⟨ts, hts, hrt⟩ := hr
      rw [← hrt]
      intro t ht
      obtain ⟨h1, h2, h3, h4⟩ := greedy_lines s.Users _ _ _ ts hts t ht
      obtain ⟨x, hx, hxi⟩ := List.mem_map.mp h1
      obtain ⟨y, hy, hyi⟩ := List.mem_map.mp h2
      obtain ⟨e1, he1, hk1⟩ := debtor_has_expense _ _ x hx
      obtain ⟨e2, he2, hk2⟩ := creditor_has_expense _ _ y hy
      have r1 := hres e1 he1
      have r2 := hres e2 he2
      rw [hk1, hxi] at r1
      rw [hk2, hyi] at r2
      rw [h3, h4]
      constructor
      · cases hg : mapGet s.Users t.debtor with
        | none => rw [hg] at r1; simp at r1
        | some n => simp
      · cases hg : mapGet s.Users t.creditor with
        | none => rw [hg] at r2; simp at r2
        | some n => simp

/-- C9: handling any sequence of messages from the empty store ends in a store
in which every user id of every expense of every session has a name in that
session's `Users` map; hence every line of a settlement report on a stored
session carries the stored names of its payer and payee. -/
theorem reachable_names_resolved (msgs : List (Message × List Int)) :
    ∃ st, run [] msgs = some st
      ∧ (∀ p ∈ st, ∀ e ∈ p.2.Expenses, (mapGet p.2.Users e.UserID).isSome = true)
      ∧ (∀ p ∈ st, ∀ (visit : List Int) (r : Reply), settle p.2 visit = some r →
          ∀ t ∈ emitted r, mapGet p.2.Users t.debtor = some t.fromName
            ∧ mapGet p.2.Users t.creditor = some t.toName) := by
  obtain ⟨st, hst, h⟩ := run_resolved msgs [] (by simp)
  exact ⟨st, hst, fun p hp e he => h p hp e he,
    fun p hp visit r hr => settle_names_resolved p.2 visit (h p hp) r hr⟩

/-! ## C8: two settlements in a row -/

theorem mapSet_eq_self {α : Type} (m : List (Int × α)) (k : Int) (v : α)
    (h : mapGet m k = some v) : mapSet m k v = m := by
  induction m with
  | nil => simp [mapGet] at h
  | cons p rest ih =>
      obtain ⟨k1, v1⟩ := p
      by_cases h1 : k1 = k
      · simp only [mapGet, h1, if_true, Option.some.injEq] at h
        simp [mapSet, h1, h]
      · simp only [mapGet, h1, if_false] at h
        simp [mapSet, h1, ih h]

theorem usersOf_mapSet (sessions : Store) (chatID : Int) (s : Session) :
    usersOf (mapSet sessions chatID s) chatID = s.Users := by
  simp [usersOf, mapGet_mapSet_same]

theorem greedy_eraseName (users users' : List (Int × String)) :
    ∀ (fuel : Nat) (ds cs : List Party),
      (greedy users fuel ds cs).map (List.map eraseName)
        = (greedy users' fuel ds cs).map (List.map eraseName) := by
  intro fuel
  induction fuel with
  | zero =>
      intro ds cs
      cases ds with
      | nil => simp [greedy_nil_left]
      | cons d ds =>
          cases cs with
          | nil => simp [greedy_nil_right]
          | cons c cs => simp [greedy]
  | succ fuel ih =>
      intro ds cs
      cases ds with
      | nil => simp [greedy_nil_left]
      | cons d ds =>
          cases cs with
          | nil => simp [greedy_nil_right]
          | cons c cs =>
              have h := ih
                (if F64.lt (d.amount - F64.min d.amount c.amount) F64.eps then ds
                 else { id := d.id, amount := d.amount - F64.min d.amount c.amount } :: ds)
                (if F64.lt (c.amount - F64.min d.amount c.amount) F64.eps then cs
                 else { id := c.id, amount := c.amount - F64.min d.amount c.amount } :: cs)
              simp only [greedy, Option.map_map]
              cases h1 : greedy users fuel
                (if F64.lt (d.amount - F64.min d.amount c.amount) F64.eps then ds
                 else { id := d.id, amount := d.amount - F64.min d.amount c.amount } :: ds)
                (if F64.lt (c.amount - F64.min d.amount c.amount) F64.eps then cs
                 else { id := c.id, amount := c.amount - F64.min d.amount c.amount } :: cs) <;>
              cases h2 : greedy users' fuel
                (if F64.lt (d.amount - F64.min d.amount c.amount) F64.eps then ds
                 else { id := d.id, amount := d.amount - F64.min d.amount c.amount } :: ds)
                (if F64.lt (c.amount - F64.min d.amount c.amount) F64.eps then cs
                 else { id := c.id, amount := c.amount - F64.min d.amount c.amount } :: cs) <;>
              rw [h1, h2] at h <;> simp at h ⊢
              exact ⟨by simp [eraseName], h⟩

theorem greedy_congr_users (users users' : List (Int × String)) :
    ∀ (fuel : Nat) (ds cs : List Party),
      (∀ p ∈ ds, mapGet users p.id = mapGet users' p.id) →
      (∀ p ∈ cs, mapGet users p.id = mapGet users' p.id) →
      greedy users fuel ds cs = greedy users' fuel ds cs := by
  intro fuel
  induction fuel with
  | zero =>
      intro ds cs _ _
      cases ds with
      | nil => simp [greedy_nil_left]
      | cons d ds =>
          cases cs with
          | nil => simp [greedy_nil_right]
          | cons c cs => simp [greedy]
  | succ fuel ih =>
      intro ds cs hd hc
      cases ds with
      | nil => simp [greedy_nil_left]
      | cons d ds =>
          cases cs with
          | nil => simp [greedy_nil_right]
          | cons c cs =>
              have hd0 := hd d (List.mem_cons_self _ _)
              have hc0 := hc c (List.mem_cons_self _ _)
              have h := ih
                (if F64.lt (d.amount - F64.min d.amount c.amount) F64.eps then ds
                 else { id := d.id, amount := d.amount - F64.min d.amount c.amount } :: ds)
                (if F64.lt (c.amount - F64.min d.amount c.amount) F64.eps then cs
                 else { id := c.id, amount := c.amount - F64.min d.amount c.amount } :: cs)
                (by
                  intro p hp
                  split at hp
                  · exact hd p (List.mem_cons_of_mem _ hp)
                  · rcases List.mem_cons.mp hp with h' | h'
                    · rw [h']; exact hd0
                    · exact hd p (List.mem_cons_of_mem _ h'))
                (by
                  intro p hp
                  split at hp
                  · exact hc p (List.mem_cons_of_mem _ hp)
                  · rcases List.mem_cons.mp hp with h' | h'
                    · rw [h']; exact hc0
                    · exact hc p (List.mem_cons_of_mem _ h'))
              simp only [greedy, h, hd0, hc0]

theorem settle_eraseNames (es : List Expense) (users users' : List (Int × String))
    (visit : List Int) :
    (settle { Expenses := es, Users := users } visit).map eraseNames
      = (settle { Expenses := es, Users := users' } visit).map eraseNames := by
  unfold settle
  simp only
  split
  · rfl
  · split
    · rfl
    · have h := greedy_eraseName users users'
        ((debtors es visit).length + (creditors es visit).length)
        (debtors es visit) (creditors es visit)
      cases h1 : greedy users ((debtors es visit).length + (creditors es visit).length)
          (debtors es visit) (creditors es visit) <;>
      cases h2 : greedy users' ((debtors es visit).length + (creditors es visit).length)
          (debtors es visit) (creditors es visit) <;>
      rw [h1, h2] at h <;> simp at h ⊢
      simp [eraseNames, h]

theorem settle_congr_users (es : List Expense) (users users' : List (Int × String))
    (visit : List Int)
    (hd : ∀ p ∈ debtors es visit, mapGet users p.id = mapGet users' p.id)
    (hc : ∀ p ∈ creditors es visit, mapGet users p.id = mapGet users' p.id) :
    settle { Expenses := es, Users := users } visit
      = settle { Expenses := es, Users := users' } visit := by
  unfold settle
  simp only
  rw [greedy_congr_users users users' _ _ _ hd hc]

/-- C8 (amended): two `/calc` in a row in one chat, from any two senders, the
balance map being ranged in the same order both times: both leave the expenses
of the chat unchanged, and the second reply is of the same kind and lists
transfers with the same payer, payee and amount in the same order as the first.
The two replies are identical, rendered names included, unless the second
sender is a debtor or creditor whose display name differs from the stored
one. -/
theorem settle_twice_same_order (sessions : Store) (chatID : Int) (who next : User)
    (visit : List Int) :
    ∃ st r st' r',
      handleMessage sessions { ChatID := chatID, From := who, Text := Command.calculate } visit
        = some (st, r)
      ∧ handleMessage st { ChatID := chatID, From := next, Text := Command.calculate } visit
        = some (st', r')
      ∧ expensesOf st chatID = expensesOf sessions chatID
      ∧ expensesOf st' chatID = expensesOf sessions chatID
      ∧ eraseNames r' = eraseNames r
      ∧ (mapGet (usersOf st chatID) next.ID = some (displayName next)
          ∨ ((∀ p ∈ debtors (expensesOf sessions chatID) visit, p.id ≠ next.ID)
              ∧ (∀ p ∈ creditors (expensesOf sessions chatID) visit, p.id ≠ next.ID))
          → r' = r) := by
  obtain ⟨r, hr⟩ := settle_total
    { Expenses := (getOrCreateSession sessions chatID).2.Expenses,
      Users := mapSet (getOrCreateSession sessions chatID).2.Users who.ID (displayName who) }
    visit
  obtain ⟨r', hr'⟩ := settle_total
    { Expenses := (getOrCreateSession sessions chatID).2.Expenses,
      Users := mapSet (mapSet (getOrCreateSession sessions chatID).2.Users who.ID
        (displayName who)) next.ID (displayName next) } visit
  have hst : handleMessage sessions
      { ChatID := chatID, From := who, Text := Command.calculate } visit
        = some (mapSet (getOrCreateSession sessions chatID).1 chatID
            { Expenses := (getOrCreateSession sessions chatID).2.Expenses,
              Users := mapSet (getOrCreateSession sessions chatID).2.Users who.ID
                (displayName who) }, r) := by
    have hr2 := hr
    unfold displayName at hr2
    simp only [handleMessage, hr2, Option.map_some']
    rfl
  have hst' : handleMessage (mapSet (getOrCreateSession sessions chatID).1 chatID
            { Expenses := (getOrCreateSession sessions chatID).2.Expenses,
              Users := mapSet (getOrCreateSession sessions chatID).2.Users who.ID
                (displayName who) })
      { ChatID := chatID, From := next, Text := Command.calculate } visit
        = some (mapSet (mapSet (getOrCreateSession sessions chatID).1 chatID
            { Expenses := (getOrCreateSession sessions chatID).2.Expenses,
              Users := mapSet (getOrCreateSession sessions chatID).2.Users who.ID
                (displayName who) }) chatID
            { Expenses := (getOrCreateSession sessions chatID).2.Expenses,
              Users := mapSet (mapSet (getOrCreateSession sessions chatID).2.Users who.ID
                (displayName who)) next.ID (displayName next) }, r') := by
    simp only [handleMessage]
    rw [getOrCreateSession_present _ _ _ (mapGet_mapSet_same _ _ _)]
    rw [show (if next.Username = "" then next.FirstName else next.Username) = displayName next
      from rfl]
    simp only [hr', Option.map_some']
  refine ⟨_, r, _, r', hst, hst', ?_, ?_, ?_, ?_⟩
  · rw [expensesOf_mapSet, expensesOf_getOrCreateSession]
  · rw [expensesOf_mapSet, expensesOf_getOrCreateSession]
  · have h := settle_eraseNames (getOrCreateSession sessions chatID).2.Expenses
      (mapSet (mapSet (getOrCreateSession sessions chatID).2.Users who.ID
        (displayName who)) next.ID (displayName next))
      (mapSet (getOrCreateSession sessions chatID).2.Users who.ID (displayName who)) visit
    rw [hr, hr'] at h
    simpa using h
  · intro hcond
    have heq : settle
          { Expenses := (getOrCreateSession sessions chatID).2.Expenses,
            Users := mapSet (mapSet (getOrCreateSession sessions chatID).2.Users who.ID
              (displayName who)) next.ID (displayName next) } visit
        = settle
          { Expenses := (getOrCreateSession sessions chatID).2.Expenses,
            Users := mapSet (getOrCreateSession sessions chatID).2.Users who.ID
              (displayName who) } visit := by
      rcases hcond with h | ⟨hd, hc⟩
      · rw [usersOf_mapSet] at h
        simp only at h
        rw [mapSet_eq_self _ _ _ h]
      · rw [← expensesOf_getOrCreateSession] at hd hc
        apply settle_congr_users
        · intro p hp
          exact mapGet_mapSet_other _ _ _ _ (hd p hp)
        · intro p hp
          exact mapGet_mapSet_other _ _ _ _ (hc p hp)
    rw [hr, hr'] at heq
    exact Option.some.inj heq

/-- Witness of C8 (amended): on the four-payer ledger a second `/calc` from a
user who has no expense gets the reply of the first. -/
theorem settle_twice_same_order_witness :
    ∃ st r st' r',
      handleMessage fourPayers fourPayersCalc [1, 2, 4, 3] = some (st, r)
      ∧ handleMessage st
          { ChatID := 20, From := { ID := 9, Username := "", FirstName := "Zed" },
            Text := Command.calculate } [1, 2, 4, 3] = some (st', r')
      ∧ expensesOf st 20 = expensesOf fourPayers 20
      ∧ expensesOf st' 20 = expensesOf fourPayers 20
      ∧ eraseNames r' = eraseNames r
      ∧ (mapGet (usersOf st 20) 9 = some (displayName { ID := 9, Username := "", FirstName := "Zed" })
          ∨ ((∀ p ∈ debtors (expensesOf fourPayers 20) [1, 2, 4, 3], p.id ≠ 9)
              ∧ (∀ p ∈ creditors (expensesOf fourPayers 20) [1, 2, 4, 3], p.id ≠ 9))
          → r' = r) :=
  settle_twice_same_order fourPayers 20 { ID := 1, Username := "ann", FirstName := "Ann" }
    { ID := 9, Username := "", FirstName := "Zed" } [1, 2, 4, 3]

/-! ## The side the greedy loop exhausts -/

end BotPopolam
